import Mathlib

/-!
Verification of the core alignment logic of the rna-seq_read_algn repository.

The source is a Python notebook (src/Algorithm.ipynb) plus a second scratch
notebook (src/unnamed/part_000).  The functions embedded here are:

* find_alignment, align_to_isoform, align_to_transcriptome and the
  transcriptome-building loop, from src/Algorithm.ipynb;
* find_seeds from src/Algorithm.ipynb;
* check_seeds from src/unnamed/part_000.

The notebooks import get_suffix_array, get_bwt, get_F, get_M, get_occ and
exact_suffix_matches from project_nader, a module that is not part of the
repository snapshot; those are modelled from the specification (sections 3,
4.1-4.3), and each such definition is marked "Modelled from the spec".

Python ints are modelled as Int where a value can go negative, and as Nat
where it provably cannot; Python strings are List Char; a Python IndexError
or unbounded recursion is modelled as an Option-valued function returning
none.  Division by the literal 2 uses Int division, which on this Lean
version is Euclidean division and therefore agrees with Python floor
division for the positive divisor 2.
-/

set_option maxRecDepth 8000

/-- Python-style list indexing: a nonnegative index reads from the front, a
negative index wraps once from the back, and anything else is an IndexError,
modelled as none. -/
def pythonGet (l : List α) (i : Int) : Option α :=
  if 0 ≤ i then l.get? i.toNat
  else if 0 ≤ i + l.length then l.get? (i + l.length).toNat else none

/-- Python string slicing s[a:b] for natural bounds: clamps and never fails. -/
def pySlice (l : List Char) (a b : Nat) : List Char :=
  (l.drop a).take (b - a)

/- ## The FM index (modelled from the spec: project_nader is not in src/) -/

/-- Modelled from the spec: lexicographic comparison of two symbol sequences,
used to order suffixes.  The terminator is smaller than every base because
its character code is smaller. -/
def lexLe : List Char → List Char → Bool
  | [], _ => true
  | _ :: _, [] => false
  | a :: as, b :: bs => if a < b then true else if b < a then false else lexLe as bs

def insertSorted (le : α → α → Bool) (x : α) : List α → List α
  | [] => [x]
  | y :: ys => if le x y then x :: y :: ys else y :: insertSorted le x ys

def sortByLe (le : α → α → Bool) : List α → List α
  | [] => []
  | x :: xs => insertSorted le x (sortByLe le xs)

/-- Modelled from the spec (section 4.1, get_suffix_array of project_nader):
the indices 0..n-1 of the terminated text sorted by lexicographic order of
the corresponding suffixes.  The spec allows any correct suffix sort. -/
def getSuffixArray (s : List Char) : List Nat :=
  sortByLe (fun i j => lexLe (s.drop i) (s.drop j)) (List.range s.length)

/-- Modelled from the spec (section 3, get_bwt of project_nader):
BWT[i] = text[SuffixArray[i]-1], wrapping to the last position when
SuffixArray[i] = 0. -/
def getBwt (s : List Char) (sa : List Nat) : List Char :=
  sa.map (fun i => s.getD ((i + s.length - 1) % s.length) '$')

/-- Modelled from the spec (get_F of project_nader): the first column of the
sorted rotation matrix, i.e. the BWT string sorted. -/
def getF (L : List Char) : List Char :=
  sortByLe (fun a b => decide (a ≤ b)) L

/-- Modelled from the spec (section 3, get_M of project_nader): M[c] is the
count of symbols strictly smaller than c, i.e. the first row of the sorted
matrix where c begins. -/
def getM (F : List Char) (c : Char) : Nat :=
  F.countP (fun a => decide (a < c))

/-- Modelled from the spec (section 3, get_occ of project_nader):
Occ[c][k] is the number of occurrences of c in BWT[0:k]. -/
def getOcc (L : List Char) (c : Char) (k : Nat) : Nat :=
  (L.take k).count c

/-- The immutable index shared by the query functions: the terminated text,
its suffix array and its BWT string (the notebooks keep these as the loose
globals sa and L, with M and occ derived from L). -/
structure FMIndex where
  text : List Char
  sa : List Nat
  L : List Char
deriving DecidableEq

def buildIndex (s : List Char) : FMIndex :=
  ⟨s, getSuffixArray s, getBwt s (getSuffixArray s)⟩

def idxM (idx : FMIndex) (c : Char) : Nat := getM (getF idx.L) c

def idxOcc (idx : FMIndex) (c : Char) (k : Nat) : Nat := getOcc idx.L c k

/-- Modelled from the spec (section 4.3): one backward-search pass over the
query scanned from its last symbol to its first, starting from the full
interval [0, n); a step that would empty the interval stops the scan and the
interval from before that step is returned together with the number of
symbols consumed. -/
def esmGo (idx : FMIndex) : List Char → Nat → Nat → Nat → (Nat × Nat) × Nat
  | [], lo, hi, consumed => ((lo, hi), consumed)
  | c :: rest, lo, hi, consumed =>
    let lo2 := idxM idx c + idxOcc idx c lo
    let hi2 := idxM idx c + idxOcc idx c hi
    if hi2 ≤ lo2 then ((lo, hi), consumed)
    else esmGo idx rest lo2 hi2 (consumed + 1)

/-- Modelled from the spec (section 4.3, exact_suffix_matches of
project_nader): returns the suffix-array interval and the matched length of
the longest suffix of the query occurring in the indexed text. -/
def exactSuffixMatches (idx : FMIndex) (query : List Char) : (Nat × Nat) × Nat :=
  esmGo idx query.reverse 0 idx.text.length 0

/- ## find_seeds (src/Algorithm.ipynb) -/

/-- BASES as displayed by the notebook. -/
def BASES : List Char := ['A', 'C', 'G', 'T']

/-- replace_base_at_index from the source:
read_sequence[:idx] + base + read_sequence[idx+1:]. -/
def replaceBaseAtIndex (read : List Char) (i : Nat) (base : Char) : List Char :=
  read.take i ++ [base] ++ read.drop (i + 1)

/-- The running best partial match of find_seeds, the tuple
max_so_far = (_range, length, read, mismatches) of the source. -/
structure SeedState where
  lo : Nat
  hi : Nat
  len : Nat
  read : List Char
  mm : Nat
deriving DecidableEq

/-- One pass of the inner for-loop of find_seeds: for every base other than
the one at the next unmatched position of the current best read, substitute
it into the ORIGINAL (reversed) read at the fixed index
lenRead - length - 1, where length is the initial exact-match length — this
is exactly what the source does (it does not use the current best read or
the current best length when building new_read). -/
def seedPass (idx : FMIndex) (origRead : List Char) (lenRead length : Nat)
    (st : SeedState) : SeedState × Bool :=
  (BASES.filter (fun b => decide (b ≠ st.read.getD (lenRead - st.len - 1) 'A'))).foldl
    (fun acc change =>
      if acc.1.len <
          (exactSuffixMatches idx (replaceBaseAtIndex origRead (lenRead - length - 1) change)).2
      then
        (⟨(exactSuffixMatches idx (replaceBaseAtIndex origRead (lenRead - length - 1) change)).1.1,
          (exactSuffixMatches idx (replaceBaseAtIndex origRead (lenRead - length - 1) change)).1.2,
          (exactSuffixMatches idx (replaceBaseAtIndex origRead (lenRead - length - 1) change)).2,
          replaceBaseAtIndex origRead (lenRead - length - 1) change, st.mm + 1⟩, true)
      else acc)
    (st, false)

/-- The while-loop of find_seeds; fuel bounds the iteration count (the loop
runs only while the previous pass improved the matched length, so at most
lenRead + 1 passes happen and the fuel given below is never exhausted). -/
def seedLoop (idx : FMIndex) (origRead : List Char) (lenRead length mismatches : Nat) :
    Nat → SeedState → Bool → SeedState
  | 0, st, _ => st
  | fuel + 1, st, updated =>
    if st.mm < mismatches ∧ st.len < lenRead ∧ updated then
      let p := seedPass idx origRead lenRead length st
      seedLoop idx origRead lenRead length mismatches fuel p.1 p.2
    else st

/-- The state of max_so_far after the while-loop of find_seeds, for a call
with (already reversed inside) read readSeq and mismatch budget m. -/
def seedTopState (idx : FMIndex) (readSeq : List Char) (m : Nat) : SeedState :=
  let rs := readSeq.reverse
  let r0 := exactSuffixMatches idx rs
  seedLoop idx rs rs.length r0.2 m (rs.length + 2) ⟨r0.1.1, r0.1.2, r0.2, rs, 0⟩ true

/-- A seed as reported by find_seeds:
(genome positions, matched length, mismatches used, query tail). -/
abbrev Seed := List Nat × Nat × Nat × List Char

/-- find_seeds from src/Algorithm.ipynb.  The Python signature is
find_seeds(read_sequence, mismatches, k); here the seed count k comes first
because the recursion is structural in it.  The read is reversed on entry;
the reported genome positions are [sa[i] for i in max_so_far[0]], which
iterates over the two components of the interval PAIR, i.e. yields
[sa[lo], sa[hi]]; an out-of-range sa access is a Python IndexError,
modelled as none. -/
def findSeeds (idx : FMIndex) : Nat → List Char → Nat → Option (List Seed)
  | 0, _, _ => some []
  | k + 1, readSeq, m =>
    let st := seedTopState idx readSeq m
    match idx.sa.get? st.lo, idx.sa.get? st.hi with
    | some pLo, some pHi =>
      let seed : Seed := ([pLo, pHi], st.len, st.mm, st.read.drop (readSeq.length - st.len))
      if readSeq.length = st.len then some [seed]
      else (findSeeds idx k (st.read.take (st.read.length - st.len)) (m - st.mm)).map
        (fun l => seed :: l)
    | _, _ => none

/- ## check_seeds (src/unnamed/part_000) -/

def MIN_INTRON_SIZE : Int := 20

def MAX_INTRON_SIZE : Int := 10000

/-- The keep/discard test of check_seeds on one candidate end location.
The Python guard is
  not high_bound or location < high_bound and
  MIN_INTRON_SIZE <= high_bound - location <= MAX_INTRON_SIZE
so an absent high_bound and a high_bound equal to 0 (both falsy in Python)
keep every position. -/
def keepB (highBound : Option Int) (location : Int) : Bool :=
  match highBound with
  | none => true
  | some hb =>
    if hb = 0 then true
    else decide (location < hb ∧ MIN_INTRON_SIZE ≤ hb - location ∧
      hb - location ≤ MAX_INTRON_SIZE)

/-- The body of check_seeds, iterating over the suffix-array indices of the
interval; an sa access out of range is an IndexError, modelled as none. -/
def checkSeedsGo (sa : List Nat) (genomeLen length : Nat) (highBound : Option Int) :
    List Nat → Option (List Int)
  | [] => some []
  | i :: rest =>
    match sa.get? i with
    | none => none
    | some sai =>
      match checkSeedsGo sa genomeLen length highBound rest with
      | none => none
      | some vs =>
        some (if keepB highBound ((sai : Int) + length) then
          ((genomeLen : Int) + 1 - ((sai : Int) + length)) :: vs else vs)

/-- check_seeds from src/unnamed/part_000.  The globals sa and
len(genome_sequence) are passed explicitly. -/
def checkSeeds (sa : List Nat) (genomeLen : Nat) (r : Nat × Nat) (length : Nat)
    (highBound : Option Int) : Option (List Int) :=
  checkSeedsGo sa genomeLen length highBound (List.range' r.1 (r.2 - r.1))

/- ## find_alignment (src/Algorithm.ipynb) -/

/-- An alignment piece (read_start, reference_start, length). -/
abbrev Piece := Int × Int × Int

/-- The inner binary search find_start_location of find_alignment.  An exon
table entry is (cumulative_spliced_offset, genome_start, exon_length).  The
source recursion is unbounded; fuel exhaustion models the RecursionError
Python would raise on inputs where the interval stops shrinking, and an
out-of-range access models the IndexError.  Integer division by 2 is
Python floor division. -/
def findStartLocation (exons : List (Int × Int × Int)) (alignStart : Int) :
    Nat → Int → Int → Option Int
  | 0, _, _ => none
  | fuel + 1, lo, hi =>
    let mid := (lo + hi) / 2
    match pythonGet exons mid with
    | none => none
    | some t =>
      if t.1 ≤ alignStart ∧ alignStart < t.1 + t.2.2 then some mid
      else if t.1 + t.2.2 ≤ alignStart then findStartLocation exons alignStart fuel (mid + 1) hi
      else findStartLocation exons alignStart fuel lo (mid - 1)

/-- The while-loop of find_alignment: while read_len > 0, step to the next
exon and append a piece starting where the previous piece ended.  The loop
accesses exons[idx] after incrementing idx, so it ends with an IndexError
(none) if the exon table runs out before the read is covered; the fuel given
by find_alignment is enough for every terminating run. -/
def pieceLoop (exons : List (Int × Int × Int)) : Nat → Int → Int → Piece → Option (List Piece)
  | 0, _, _, _ => none
  | fuel + 1, readLen, i, prev =>
    if 0 < readLen then
      match pythonGet exons (i + 1) with
      | none => none
      | some t =>
        let p : Piece := (prev.1 + prev.2.2, t.2.1, if readLen ≤ t.2.2 then readLen else t.2.2)
        (pieceLoop exons fuel (readLen - t.2.2) (i + 1) p).map (fun l => p :: l)
    else some []

/-- find_alignment from src/Algorithm.ipynb: locate the exon containing
align_start by binary search over (0, len(exons)), emit a first piece
clipped to that exon, then extend across subsequent exons while read length
remains. -/
def findAlignment (readLen alignStart : Int) (exons : List (Int × Int × Int)) :
    Option (List Piece) :=
  match findStartLocation exons alignStart (exons.length + 1) 0 exons.length with
  | none => none
  | some i =>
    match pythonGet exons i with
    | none => none
    | some t =>
      let off := alignStart - t.1
      let p0 : Piece := (0, t.2.1 + off, if readLen + off ≤ t.2.2 then readLen else t.2.2 - off)
      (pieceLoop exons (exons.length + 1) (readLen - (t.2.2 - off)) i p0).map (fun l => p0 :: l)

/- ## align_to_isoform and align_to_transcriptome (src/Algorithm.ipynb) -/

/-- The mismatch indicator at read position j of the scan at offset i:
1 when isoform[i+j] != read[j] and 0 otherwise.  Every access the callers
make is in bounds, so getD coincides with Python indexing there. -/
def mmDelta (iso : List Char) (i j : Nat) (c : Char) : Nat :=
  if iso.getD (i + j) 'A' ≠ c then 1 else 0

/-- The number of mismatches between the read and the isoform at offset i:
the count of read positions j with isoform[i+j] != read[j].  The list
argument is the still unscanned part of the read; j is the current read
position. -/
def countMM (iso : List Char) (i : Nat) : List Char → Nat → Nat
  | [], _ => 0
  | c :: rest, j => mmDelta iso i j c + countMM iso i rest (j + 1)

def countMismatches (read iso : List Char) (i : Nat) : Nat :=
  countMM iso i read 0

/-- The inner while-loop of align_to_isoform: scan the read at offset i,
counting mismatches (the source's "mismatches += 1 if unequal" update is
written as adding the 0/1 indicator), and break as soon as the count
exceeds the ceiling — so the final position j equals len(read) exactly when
the offset matches within the ceiling. -/
def mmLoop (iso : List Char) (i maxMM : Nat) : List Char → Nat → Nat → Nat × Nat
  | [], j, mm => (j, mm)
  | c :: rest, j, mm =>
    if maxMM < mm + mmDelta iso i j c then (j, mm + mmDelta iso i j c)
    else mmLoop iso i maxMM rest (j + 1) (mm + mmDelta iso i j c)

/-- The number of candidate offsets scanned by align_to_isoform:
len(isoform) - len(read) + 1, clamped at 0 exactly as Python range is. -/
def numOffsets (iso read : List Char) : Nat :=
  ((iso.length : Int) - read.length + 1).toNat

/-- One step of the offset scan of align_to_isoform: the offset is kept when
the whole read was scanned (j == len(read)) and its mismatch count is
strictly below the current best (the initial best is +infinity, modelled by
none). -/
def beatsLt (mm : Nat) (acc : Option (Nat × Nat)) : Bool :=
  match acc with
  | none => true
  | some b => decide (mm < b.2)

def isoStep (read iso : List Char) (maxMM : Nat) (acc : Option (Nat × Nat)) (i : Nat) :
    Option (Nat × Nat) :=
  if decide ((mmLoop iso i maxMM read 0 0).1 = read.length) &&
      beatsLt (mmLoop iso i maxMM read 0 0).2 acc then
    some (i, (mmLoop iso i maxMM read 0 0).2)
  else acc

/-- align_to_isoform from src/Algorithm.ipynb.  The sentinel return
(-1, float("inf")) is modelled as none; a successful return carries the
find_alignment result (itself an Option: none there models a Python
exception inside find_alignment) and the winning mismatch count. -/
def alignToIsoform (read iso : List Char) (exons : List (Int × Int × Int)) (maxMM : Nat) :
    Option (Option (List Piece) × Nat) :=
  let best := (List.range (numOffsets iso read)).foldl (isoStep read iso maxMM) none
  best.map (fun b => (findAlignment read.length b.1 exons, b.2))

/-- A transcriptome entry: the concatenated exon sequence of one isoform and
its exon prefix table. -/
abbrev TransEntry := List Char × List (Int × Int × Int)

/-- One step of the gene/isoform scan of align_to_transcriptome: a candidate
replaces the current best when its mismatch count is less than OR EQUAL TO
the best so far (the source condition is mismatches <= match[1]). -/
def beatsLe (mm : Nat) (acc : Option (Option (List Piece) × Nat)) : Bool :=
  match acc with
  | none => true
  | some b => decide (mm ≤ b.2)

def transStep (read : List Char) (maxMM : Nat) (acc : Option (Option (List Piece) × Nat))
    (e : TransEntry) : Option (Option (List Piece) × Nat) :=
  match alignToIsoform read e.1 e.2 maxMM with
  | none => acc
  | some c => if beatsLe c.2 acc then some c else acc

/-- align_to_transcriptome from src/Algorithm.ipynb: iterate over genes in
order, then over each gene's isoforms in order.  The sentinel (-1, inf) is
modelled as none. -/
def alignToTranscriptome (read : List Char) (ts : List (List TransEntry)) (maxMM : Nat) :
    Option (Option (List Piece) × Nat) :=
  ts.foldl (fun acc gene => gene.foldl (transStep read maxMM) acc) none

/-- The mismatch count align_to_isoform reports for one entry, as an
extended natural (+infinity for the no-match sentinel). -/
def isoMM (read : List Char) (e : TransEntry) (maxMM : Nat) : WithTop Nat :=
  match alignToIsoform read e.1 e.2 maxMM with
  | none => ⊤
  | some c => (c.2 : WithTop Nat)

/- ## The transcriptome-building loop (src/Algorithm.ipynb) -/

/-- The loop body building one transcriptome entry from an isoform's exon
(start, end) pairs:
  isoform += genome_sequence[ex.start:ex.end]
  exons.append((total_len, ex.start, ex.end - ex.start))
  total_len += ex.end - ex.start -/
def buildEntryGo (genome : List Char) : List (Nat × Nat) → List Char →
    List (Int × Int × Int) → Int → List Char × List (Int × Int × Int) × Int
  | [], iso, tbl, tot => (iso, tbl, tot)
  | se :: rest, iso, tbl, tot =>
    buildEntryGo genome rest (iso ++ pySlice genome se.1 se.2)
      (tbl ++ [(tot, (se.1 : Int), (se.2 : Int) - se.1)]) (tot + ((se.2 : Int) - se.1))

/-- The transcriptome entry (spliced sequence, exon prefix table) the
notebook builds for an isoform with the given exon list. -/
def buildEntry (genome : List Char) (exs : List (Nat × Nat)) : TransEntry :=
  ((buildEntryGo genome exs [] [] 0).1, (buildEntryGo genome exs [] [] 0).2.1)

/- ## Structural views of the exon prefix table, used to reason about it -/

/-- The (integer) length end - start of one exon. -/
def exLen (se : Nat × Nat) : Int := (se.2 : Int) - se.1

/-- The concatenated exon slices of the genome, the structural form of the
isoform string built by the notebook loop. -/
def sliceCat (genome : List Char) : List (Nat × Nat) → List Char
  | [] => []
  | se :: rest => pySlice genome se.1 se.2 ++ sliceCat genome rest

/-- The exon prefix table built from a running offset, the structural form
of the exons list built by the notebook loop. -/
def tableGo : List (Nat × Nat) → Int → List (Int × Int × Int)
  | [], _ => []
  | se :: rest, tot => (tot, (se.1 : Int), exLen se) :: tableGo rest (tot + exLen se)

def tableFor (exs : List (Nat × Nat)) : List (Int × Int × Int) :=
  tableGo exs 0

/-- The total spliced length of an exon list. -/
def totalFor (exs : List (Nat × Nat)) : Int := (exs.map exLen).sum

/-- The cumulative spliced offset of exon k. -/
def cumFor (exs : List (Nat × Nat)) (k : Nat) : Int := ((exs.take k).map exLen).sum

/-- The pieces after prev, starting at exon i, chain across exon junctions:
each piece ends at the genome end of its exon and the next piece starts at
the genome start of the following exon. -/
def junctChain (exs : List (Nat × Nat)) : Nat → Piece → List Piece → Prop
  | _, _, [] => True
  | i, prev, q :: rest =>
    i + 1 < exs.length ∧
    prev.2.1 + prev.2.2 = ((exs.getD i (0, 0)).2 : Int) ∧
    q.2.1 = ((exs.getD (i + 1) (0, 0)).1 : Int) ∧
    junctChain exs (i + 1) q rest

/- ## Derived predicates used by the claims -/

/-- The piece of an alignment at position i (dummy outside the range). -/
def pieceAt (algn : List Piece) (i : Nat) : Piece := algn.getD i (0, 0, 0)

/-- The sum of the piece lengths of an alignment. -/
def sumLens (algn : List Piece) : Int := (algn.map (fun p => p.2.2)).sum

/-- The read occurs verbatim in the isoform sequence at offset off. -/
def occursAt (read iso : List Char) (off : Nat) : Prop :=
  off + read.length ≤ iso.length ∧
    ∀ j < read.length, iso.getD (off + j) 'A' = read.getD j 'A'

instance (read iso : List Char) (off : Nat) : Decidable (occursAt read iso off) :=
  inferInstanceAs (Decidable (_ ∧ _))

/-- Some offset of the isoform matches the read within the mismatch
ceiling. -/
def containsWithin (read iso : List Char) (maxMM : Nat) : Prop :=
  ∃ off < numOffsets iso read, countMismatches read iso off ≤ maxMM

instance (read iso : List Char) (maxMM : Nat) : Decidable (containsWithin read iso maxMM) :=
  inferInstanceAs (Decidable (∃ off < numOffsets iso read, _))

/-- Exon coordinates are sane: end > start (spec section 3 invariant) and
the exon lies inside the genome. -/
def wfExons (genome : List Char) (exs : List (Nat × Nat)) : Prop :=
  ∀ se ∈ exs, se.1 < se.2 ∧ se.2 ≤ genome.length

instance (genome : List Char) (exs : List (Nat × Nat)) : Decidable (wfExons genome exs) :=
  inferInstanceAs (Decidable (∀ se ∈ exs, se.1 < se.2 ∧ se.2 ≤ genome.length))

/-- Consecutive pieces chain exactly: each next piece starts in the read
where the previous one ended. -/
def consecEq (algn : List Piece) : Prop :=
  ∀ i, i + 1 < algn.length →
    (pieceAt algn (i + 1)).1 = (pieceAt algn i).1 + (pieceAt algn i).2.2

/-- Every boundary between consecutive pieces falls exactly at an exon
junction of the exon list exs: the earlier piece ends at the genome end of
exon k and the later piece starts at the genome start of exon k+1. -/
def junctionOk (exs : List (Nat × Nat)) (algn : List Piece) : Prop :=
  ∀ i, i + 1 < algn.length → ∃ k, k + 1 < exs.length ∧
    (pieceAt algn i).2.1 + (pieceAt algn i).2.2 = ((exs.getD k (0, 0)).2 : Int) ∧
    (pieceAt algn (i + 1)).2.1 = ((exs.getD (k + 1) (0, 0)).1 : Int)

/- ## Helper lemmas -/

theorem pythonGet_mem {α : Type} {l : List α} {i : Int} {a : α} (h : pythonGet l i = some a) :
    a ∈ l := by
  unfold pythonGet at h
  split at h
  · exact List.get?_mem h
  · split at h
    · exact List.get?_mem h
    · exact absurd h (by simp)

theorem getD_mem_of_lt {α : Type} {l : List α} {i : Nat} (d : α) (h : i < l.length) :
    l.getD i d ∈ l := by
  rw [List.getD_eq_getElem l d h]
  exact List.getElem_mem h

theorem pieceAt_cons_succ (p : Piece) (l : List Piece) (i : Nat) :
    pieceAt (p :: l) (i + 1) = pieceAt l i := rfl

theorem pieceAt_cons_zero (p : Piece) (l : List Piece) : pieceAt (p :: l) 0 = p := rfl

theorem consecEq_cons {p : Piece} {l : List Piece}
    (h0 : l ≠ [] → (pieceAt l 0).1 = p.1 + p.2.2) (h1 : consecEq l) : consecEq (p :: l) := by
  intro i hi
  cases i with
  | zero =>
    have hne : l ≠ [] := by
      intro he
      subst he
      simp at hi
    rw [pieceAt_cons_succ, pieceAt_cons_zero]
    exact h0 hne
  | succ n =>
    rw [pieceAt_cons_succ, pieceAt_cons_succ]
    exact h1 n (by simpa using hi)

theorem pieceLoop_chain (exons : List (Int × Int × Int)) :
    ∀ (fuel : Nat) (rl i : Int) (prev : Piece) (l : List Piece),
      pieceLoop exons fuel rl i prev = some l → consecEq (prev :: l) := by
  intro fuel
  induction fuel with
  | zero =>
    intro rl i prev l h
    exact absurd h (by simp [pieceLoop])
  | succ n ih =>
    intro rl i prev l h
    simp only [pieceLoop] at h
    split at h
    · cases hg : pythonGet exons (i + 1) with
      | none =>
        rw [hg] at h
        exact absurd h (by simp)
      | some t =>
        rw [hg] at h
        simp only [Option.map_eq_some'] at h
        obtain ⟨l', hl', rfl⟩ := h
        exact consecEq_cons (fun _ => rfl) (ih _ _ _ _ hl')
    · have hl : l = [] := by
        simpa using h.symm
      subst hl
      intro i hi
      exact absurd hi (by simp)

/-- Destructuring of a successful find_alignment run into its three stages. -/
theorem findAlignment_elim {readLen alignStart : Int} {exons : List (Int × Int × Int)}
    {algn : List Piece} (h : findAlignment readLen alignStart exons = some algn) :
    ∃ i t l, findStartLocation exons alignStart (exons.length + 1) 0 exons.length = some i ∧
      pythonGet exons i = some t ∧
      pieceLoop exons (exons.length + 1) (readLen - (t.2.2 - (alignStart - t.1))) i
        (0, t.2.1 + (alignStart - t.1),
          if readLen + (alignStart - t.1) ≤ t.2.2 then readLen
          else t.2.2 - (alignStart - t.1)) = some l ∧
      algn = (0, t.2.1 + (alignStart - t.1),
          if readLen + (alignStart - t.1) ≤ t.2.2 then readLen
          else t.2.2 - (alignStart - t.1)) :: l := by
  unfold findAlignment at h
  split at h
  · exact absurd h (by simp)
  · rename_i i hs
    split at h
    · exact absurd h (by simp)
    · rename_i t hg
      simp only [Option.map_eq_some'] at h
      obtain ⟨l, hl, rfl⟩ := h
      exact ⟨i, t, l, hs, hg, hl, rfl⟩

/-- A successful binary search returns an index whose exon entry contains
align_start. -/
theorem findStartLocation_some {exons : List (Int × Int × Int)} {alignStart : Int} :
    ∀ {fuel : Nat} {lo hi i : Int},
      findStartLocation exons alignStart fuel lo hi = some i →
      ∃ t, pythonGet exons i = some t ∧ t.1 ≤ alignStart ∧ alignStart < t.1 + t.2.2 := by
  intro fuel
  induction fuel with
  | zero =>
    intro lo hi i h
    exact absurd h (by simp [findStartLocation])
  | succ n ih =>
    intro lo hi i h
    simp only [findStartLocation] at h
    split at h
    · exact absurd h (by simp)
    · rename_i t hg
      split at h
      · rename_i hcond
        obtain rfl : ((lo + hi) / 2) = i := by simpa using h
        exact ⟨t, hg, hcond.1, hcond.2⟩
      · split at h
        · exact ih h
        · exact ih h

/-- All piece lengths built by the while-loop of find_alignment are
nonnegative when every exon length in the table is. -/
theorem pieceLoop_lens {exons : List (Int × Int × Int)}
    (hex : ∀ t ∈ exons, 0 ≤ t.2.2) :
    ∀ {fuel : Nat} {rl i : Int} {prev : Piece} {l : List Piece},
      pieceLoop exons fuel rl i prev = some l → ∀ p ∈ l, 0 ≤ p.2.2 := by
  intro fuel
  induction fuel with
  | zero =>
    intro rl i prev l h
    exact absurd h (by simp [pieceLoop])
  | succ n ih =>
    intro rl i prev l h
    simp only [pieceLoop] at h
    split at h
    · rename_i hrl
      cases hg : pythonGet exons (i + 1) with
      | none =>
        rw [hg] at h
        exact absurd h (by simp)
      | some t =>
        rw [hg] at h
        simp only [Option.map_eq_some'] at h
        obtain ⟨l', hl', rfl⟩ := h
        intro p hp
        rcases List.mem_cons.mp hp with rfl | hp'
        · have ht := pythonGet_mem hg
          have := hex t ht
          dsimp only
          split
          · omega
          · omega
        · exact ih hl' p hp'
    · have hl : l = [] := by simpa using h.symm
      subst hl
      intro p hp
      exact absurd hp (by simp)

/- ## Claim theorems (first batch) -/

/-- C9: every alignment produced by find_alignment is exactly contiguous in
the read: the first piece has read_start 0, and each next piece starts in
the read exactly where the previous one ended (read_start[i+1] =
read_start[i] + length[i], with no gap). -/
theorem c9_contiguous_pieces (readLen alignStart : Int) (exons : List (Int × Int × Int))
    (algn : List Piece) (h : findAlignment readLen alignStart exons = some algn) :
    (pieceAt algn 0).1 = 0 ∧ consecEq algn := by
  obtain ⟨i, t, l, _, _, hl, rfl⟩ := findAlignment_elim h
  exact ⟨rfl, pieceLoop_chain exons _ _ _ _ _ hl⟩

/-- C9 witness: a concrete two-exon spanning alignment. -/
theorem c9_contiguous_pieces_witness :
    findAlignment 2 1 [(0,0,2),(2,2,2)] = some [(0,1,1),(1,2,1)] ∧
      (pieceAt [(0,1,1),(1,2,1)] 0).1 = 0 ∧ consecEq [(0,1,1),(1,2,1)] := by
  have h : findAlignment 2 1 [(0,0,2),(2,2,2)] = some [(0,1,1),(1,2,1)] := by decide
  exact ⟨h, c9_contiguous_pieces 2 1 [(0,0,2),(2,2,2)] [(0,1,1),(1,2,1)] h⟩

/-- C10: a read strictly longer than the isoform sequence yields the
no-match sentinel (modelled as none) because the scanned offset range
len(isoform) - len(read) + 1 is empty; no comparison is made at all. -/
theorem c10_read_longer_than_isoform (read iso : List Char) (exons : List (Int × Int × Int))
    (maxMM : Nat) (h : iso.length < read.length) :
    numOffsets iso read = 0 ∧ alignToIsoform read iso exons maxMM = none := by
  have h0 : numOffsets iso read = 0 := by
    unfold numOffsets
    omega
  refine ⟨h0, ?_⟩
  unfold alignToIsoform
  rw [h0]
  rfl

/-- C10 witness. -/
theorem c10_read_longer_than_isoform_witness :
    numOffsets ['A'] ['A','A'] = 0 ∧ alignToIsoform ['A','A'] ['A'] [] 6 = none := by
  exact c10_read_longer_than_isoform ['A','A'] ['A'] [] 6 (by decide)

/-- An exactly chaining alignment with nonnegative piece lengths satisfies
the ordering invariant and is sorted by read_start. -/
theorem chain_sorted {algn : List Piece} (hchain : consecEq algn)
    (hlen : ∀ j, j < algn.length → 0 ≤ (pieceAt algn j).2.2) :
    (∀ i, i + 1 < algn.length →
      (pieceAt algn i).1 + (pieceAt algn i).2.2 ≤ (pieceAt algn (i + 1)).1) ∧
    (∀ i, i + 1 < algn.length → (pieceAt algn i).1 ≤ (pieceAt algn (i + 1)).1) := by
  constructor
  · intro j hj
    exact le_of_eq (hchain j hj).symm
  · intro j hj
    have he := hchain j hj
    have hlj := hlen j (by omega)
    omega

/-- C5: every alignment returned by find_alignment satisfies the
piece-ordering invariant: read_start[i] + length[i] <= read_start[i+1] for
consecutive pieces (the code even makes this an equality), and the pieces
are sorted by read_start.  The hypotheses are the data-model invariants: a
nonnegative read length and nonnegative exon lengths (spec section 3
requires end > start for every exon). -/
theorem c5_piece_ordering (readLen alignStart : Int) (exons : List (Int × Int × Int))
    (algn : List Piece) (hrl : 0 ≤ readLen) (hex : ∀ t ∈ exons, 0 ≤ t.2.2)
    (h : findAlignment readLen alignStart exons = some algn) :
    (∀ i, i + 1 < algn.length →
      (pieceAt algn i).1 + (pieceAt algn i).2.2 ≤ (pieceAt algn (i + 1)).1) ∧
    (∀ i, i + 1 < algn.length → (pieceAt algn i).1 ≤ (pieceAt algn (i + 1)).1) := by
  obtain ⟨i, t, l, hs, hg, hl, rfl⟩ := findAlignment_elim h
  obtain ⟨t', hg', hc1, hc2⟩ := findStartLocation_some hs
  rw [hg] at hg'
  obtain rfl : t = t' := by simpa using hg'
  have hchain := pieceLoop_chain exons _ _ _ _ _ hl
  refine chain_sorted hchain ?_
  intro j hj
  cases j with
  | zero =>
    rw [pieceAt_cons_zero]
    dsimp only
    split <;> omega
  | succ n =>
    rw [pieceAt_cons_succ]
    have hn : n < l.length := by simpa using hj
    have hm : l.getD n (0, 0, 0) ∈ l := getD_mem_of_lt (0, 0, 0) hn
    exact pieceLoop_lens hex hl _ hm

/-- C5 witness: a concrete two-exon spanning alignment. -/
theorem c5_piece_ordering_witness :
    (0 ≤ (2 : Int)) ∧ findAlignment 2 1 [(0,0,2),(2,2,2)] = some [(0,1,1),(1,2,1)] ∧
      (∀ i, i + 1 < ([(0,1,1),(1,2,1)] : List Piece).length →
        (pieceAt [(0,1,1),(1,2,1)] i).1 + (pieceAt [(0,1,1),(1,2,1)] i).2.2 ≤
          (pieceAt [(0,1,1),(1,2,1)] (i + 1)).1) := by
  have h : findAlignment 2 1 [(0,0,2),(2,2,2)] = some [(0,1,1),(1,2,1)] := by decide
  exact ⟨by decide, h,
    (c5_piece_ordering 2 1 [(0,0,2),(2,2,2)] [(0,1,1),(1,2,1)] (by decide) (by decide) h).1⟩

/-- C2 (code bug): the mismatch-extension loop of find_seeds builds every
candidate by substituting into the ORIGINAL reversed read at the fixed
index len_read - length - 1, where length is the pre-loop exact-match
length, instead of the current mutated read at index
len_read - current_matched_length - 1 as the claim (and spec section 4.4,
and find_max_so_far of part_000) describe.  Consequently a second
substitution round can never improve the match.  Concretely, over the
genome TACT with read TGAA (reversed: AAGT) and budget 6: the loop stops in
state (interval (1,2), length 3, mutated read AACT, 1 mismatch) although
substituting T at index 4 - 3 - 1 = 0 of the current read AACT — the step
the claim describes — extends the match to the full length 4. -/
theorem c2_substitution_uses_stale_index :
    seedTopState (buildIndex ['T','A','C','T','$']) ['T','G','A','A'] 6 =
      ⟨1, 2, 3, ['A','A','C','T'], 1⟩ ∧
    findSeeds (buildIndex ['T','A','C','T','$']) 3 ['T','G','A','A'] 6 =
      some [([1,2], 3, 1, ['A','C','T']), ([1,2], 1, 0, ['A'])] ∧
    exactSuffixMatches (buildIndex ['T','A','C','T','$'])
      (replaceBaseAtIndex ['A','A','C','T'] 0 'T') = ((4,5), 4) ∧
    (1 : Nat) < 6 ∧ (3 : Nat) < 4 := by decide

/-- C3 (code bug): the genome positions of a reported seed are
[sa[lo], sa[hi]] — the source iterates over the interval PAIR
max_so_far[0], not over range(lo, hi) — rather than the materialized
suffix-array interval.  Concretely, over the genome AAAT with read A the
exact matcher returns the interval (1,4) whose materialization is
sa[1..3] = [0,1,2], but the reported seed holds positions
[sa[1], sa[4]] = [0,3]: position 1 (= sa[2]) is missing and position 3
(= sa[4], outside the interval, not an occurrence of A) is included. -/
theorem c3_positions_are_interval_endpoints :
    exactSuffixMatches (buildIndex ['A','A','A','T','$']) ['A'] = ((1,4), 1) ∧
    findSeeds (buildIndex ['A','A','A','T','$']) 3 ['A'] 6 =
      some [([0,3], 1, 0, ['A'])] ∧
    (List.range' 1 3).map (fun i => (buildIndex ['A','A','A','T','$']).sa.getD i 0) =
      [0, 1, 2] ∧
    (1 : Nat) ∈ [0, 1, 2] ∧ ¬ (1 : Nat) ∈ ([0, 3] : List Nat) ∧
    (3 : Nat) ∈ ([0, 3] : List Nat) ∧ ¬ (3 : Nat) ∈ ([0, 1, 2] : List Nat) := by decide

/-- C1 counterexample: two isoforms (in two different genes) tie at 1
mismatch; align_to_transcriptome returns the alignment of the SECOND
encountered candidate, not the first, because the source keeps a later
candidate already when mismatches <= match[1]. -/
theorem c1_first_encounter_not_kept :
    alignToIsoform ['A','A'] ['A','C'] [(0,10,2)] 6 = some (some [(0,10,2)], 1) ∧
    alignToIsoform ['A','A'] ['A','G'] [(0,20,2)] 6 = some (some [(0,20,2)], 1) ∧
    alignToTranscriptome ['A','A']
      [[(['A','C'], [(0,10,2)])], [(['A','G'], [(0,20,2)])]] 6 =
      some (some [(0,20,2)], 1) ∧
    (some (some [(0,20,2)], 1) : Option (Option (List Piece) × Nat)) ≠
      some (some [(0,10,2)], 1) := by
  refine ⟨by decide, by decide, by decide, by decide⟩

/-- C7 counterexample: with high_bound = 0 supplied, the Python truthiness
test "not high_bound" disables the filter, so a position whose implied gap
0 - location = 0 lies outside [MIN_INTRON_SIZE, MAX_INTRON_SIZE] is
nevertheless kept (the result is the nonempty list [2]). -/
theorem c7_zero_bound_keeps_all :
    checkSeeds [0] 1 (0, 1) 0 (some 0) = some [2] ∧
    ¬ (MIN_INTRON_SIZE ≤ (0 : Int) - ((0 : Int) + 0) ∧
        (0 : Int) - ((0 : Int) + 0) ≤ MAX_INTRON_SIZE) := by decide

/- ## Lemmas about the offset scan of align_to_isoform -/

/-- If the total mismatch count stays within the ceiling, the scan loop
completes and reports exactly that count. -/
theorem mmLoop_complete (iso : List Char) (i maxMM : Nat) :
    ∀ (rest : List Char) (j mm : Nat), mm + countMM iso i rest j ≤ maxMM →
      mmLoop iso i maxMM rest j mm = (j + rest.length, mm + countMM iso i rest j) := by
  intro rest
  induction rest with
  | nil =>
    intro j mm _
    simp [mmLoop, countMM]
  | cons c rest ih =>
    intro j mm h
    simp only [countMM] at h ⊢
    simp only [mmLoop]
    rw [if_neg (by omega)]
    rw [ih (j + 1) (mm + mmDelta iso i j c) (by omega)]
    simp only [List.length_cons, Prod.mk.injEq]
    omega

/-- If the scan loop reaches the end of the read, the reported count is the
total mismatch count and (for a nonempty read) is within the ceiling. -/
theorem mmLoop_completed_eq (iso : List Char) (i maxMM : Nat) :
    ∀ (rest : List Char) (j mm mm2 : Nat),
      mmLoop iso i maxMM rest j mm = (j + rest.length, mm2) →
      mm2 = mm + countMM iso i rest j ∧ (rest ≠ [] → mm2 ≤ maxMM) := by
  intro rest
  induction rest with
  | nil =>
    intro j mm mm2 h
    simp only [mmLoop, List.length_nil, Nat.add_zero, Prod.mk.injEq] at h
    exact ⟨by simp [countMM, h.2.symm], fun hne => absurd rfl hne⟩
  | cons c rest ih =>
    intro j mm mm2 h
    simp only [mmLoop, List.length_cons] at h
    split at h
    · rename_i hbreak
      simp only [Prod.mk.injEq] at h
      exact absurd h.1 (by omega)
    · rename_i hok
      rw [show j + (rest.length + 1) = (j + 1) + rest.length by omega] at h
      rcases Decidable.em (rest = []) with hre | hre
      · subst hre
        simp only [mmLoop, List.length_nil, Nat.add_zero, Prod.mk.injEq] at h
        simp only [countMM, countMM, Nat.add_zero]
        exact ⟨by omega, fun _ => by omega⟩
      · obtain ⟨h1, h2⟩ := ih (j + 1) _ mm2 h
        simp only [countMM]
        exact ⟨by omega, fun _ => h2 hre⟩

/-- Invariant of the offset fold: any reported best offset lies in the
scanned range and its mismatch loop completed with the reported count. -/
theorem isoFold_prov (read iso : List Char) (maxMM N : Nat) :
    ∀ (l : List Nat) (acc : Option (Nat × Nat)),
      (∀ x ∈ l, x < N) →
      (∀ b : Nat × Nat, acc = some b →
        b.1 < N ∧ mmLoop iso b.1 maxMM read 0 0 = (read.length, b.2)) →
      ∀ b : Nat × Nat, l.foldl (isoStep read iso maxMM) acc = some b →
        b.1 < N ∧ mmLoop iso b.1 maxMM read 0 0 = (read.length, b.2) := by
  intro l
  induction l with
  | nil =>
    intro acc _ hacc b h
    exact hacc b h
  | cons x l ih =>
    intro acc hl hacc b h
    refine ih (isoStep read iso maxMM acc x) (fun y hy => hl y (List.mem_cons_of_mem _ hy))
      ?_ b h
    intro b' hb'
    unfold isoStep at hb'
    split at hb'
    · rename_i hcond
      rw [Bool.and_eq_true, decide_eq_true_iff] at hcond
      obtain rfl : (x, (mmLoop iso x maxMM read 0 0).2) = b' := by simpa using hb'
      refine ⟨hl x (List.mem_cons_self x l), ?_⟩
      have hsplit : mmLoop iso x maxMM read 0 0 =
          ((mmLoop iso x maxMM read 0 0).1, (mmLoop iso x maxMM read 0 0).2) := rfl
      rw [hsplit, hcond.1]
    · exact hacc b' hb'

/-- If no scanned offset completes, the fold never updates. -/
theorem isoFold_id (read iso : List Char) (maxMM : Nat) :
    ∀ (l : List Nat) (acc : Option (Nat × Nat)),
      (∀ x ∈ l, (mmLoop iso x maxMM read 0 0).1 ≠ read.length) →
      l.foldl (isoStep read iso maxMM) acc = acc := by
  intro l
  induction l with
  | nil => intro acc _; rfl
  | cons x l ih =>
    intro acc hl
    have hx : isoStep read iso maxMM acc x = acc := by
      unfold isoStep
      rw [if_neg]
      simp only [Bool.and_eq_true, decide_eq_true_iff]
      intro hc
      exact hl x (List.mem_cons_self x l) hc.1
    simp only [List.foldl_cons, hx]
    exact ih acc (fun y hy => hl y (List.mem_cons_of_mem _ hy))

/-- If some scanned offset completes with zero mismatches, the final best
has zero mismatches. -/
theorem isoFold_zero (read iso : List Char) (maxMM : Nat) :
    ∀ (l : List Nat) (acc : Option (Nat × Nat)),
      ((∃ x ∈ l, mmLoop iso x maxMM read 0 0 = (read.length, 0)) ∨
        (∃ b : Nat × Nat, acc = some b ∧ b.2 = 0)) →
      ∃ off, l.foldl (isoStep read iso maxMM) acc = some (off, 0) := by
  intro l
  induction l with
  | nil =>
    intro acc h
    rcases h with ⟨x, hx, _⟩ | ⟨b, hb, hb2⟩
    · exact absurd hx (by simp)
    · exact ⟨b.1, by simpa [← hb2] using hb⟩
  | cons x l ih =>
    intro acc h
    simp only [List.foldl_cons]
    rcases h with ⟨x0, hx0, hml⟩ | ⟨b, hb, hb2⟩
    · rcases List.mem_cons.mp hx0 with rfl | hx0'
      · refine ih _ (Or.inr ?_)
        unfold isoStep
        rw [hml]
        cases acc with
        | none =>
          refine ⟨(x0, 0), ?_, rfl⟩
          rw [if_pos (by simp [beatsLt])]
        | some b =>
          by_cases hb2 : b.2 = 0
          · refine ⟨b, ?_, hb2⟩
            rw [if_neg (by simp [beatsLt, hb2])]
          · refine ⟨(x0, 0), ?_, rfl⟩
            rw [if_pos (by simp [beatsLt]; omega)]
      · exact ih _ (Or.inl ⟨x0, hx0', hml⟩)
    · subst hb
      refine ih _ (Or.inr ?_)
      unfold isoStep
      rw [if_neg (by simp [beatsLt, hb2])]
      exact ⟨b, rfl, hb2⟩

/-- Provenance of a successful align_to_isoform result. -/
theorem alignToIsoform_mm {read iso : List Char} {exons : List (Int × Int × Int)}
    {maxMM : Nat} {fa : Option (List Piece)} {mm : Nat}
    (h : alignToIsoform read iso exons maxMM = some (fa, mm)) :
    ∃ off < numOffsets iso read, mmLoop iso off maxMM read 0 0 = (read.length, mm) ∧
      fa = findAlignment read.length off exons := by
  unfold alignToIsoform at h
  simp only [Option.map_eq_some'] at h
  obtain ⟨b, hb, hfa⟩ := h
  have hpv := isoFold_prov read iso maxMM (numOffsets iso read)
    (List.range (numOffsets iso read)) none
    (fun x hx => List.mem_range.mp hx) (fun b' hb' => absurd hb' (by simp)) b hb
  obtain ⟨hfa1, hfa2⟩ := Prod.mk.injEq .. ▸ hfa
  exact ⟨b.1, hpv.1, by rw [hpv.2, hfa2], hfa1.symm⟩

/-- A read no isoform offset accommodates within the ceiling yields the
sentinel. -/
theorem alignToIsoform_none_of {read iso : List Char} {exons : List (Int × Int × Int)}
    {maxMM : Nat} (h : ¬ containsWithin read iso maxMM) :
    alignToIsoform read iso exons maxMM = none := by
  unfold alignToIsoform
  rw [isoFold_id]
  · rfl
  · intro x hx hml
    refine h ⟨x, List.mem_range.mp hx, ?_⟩
    have h0 : mmLoop iso x maxMM read 0 0 = (0 + read.length, (mmLoop iso x maxMM read 0 0).2) := by
      rw [Nat.zero_add]
      exact Prod.ext hml rfl
    have hce := mmLoop_completed_eq iso x maxMM read 0 0 _ h0
    by_cases hre : read = []
    · subst hre
      simp [countMismatches, countMM]
    · have h2 := hce.2 hre
      have h1 := hce.1
      unfold countMismatches
      omega

/-- A verbatim occurrence forces align_to_isoform to report zero
mismatches. -/
theorem alignToIsoform_zero {read iso : List Char} (exons : List (Int × Int × Int))
    (maxMM : Nat) (h : ∃ off < numOffsets iso read, countMismatches read iso off = 0) :
    ∃ off < numOffsets iso read, countMismatches read iso off = 0 ∧
      alignToIsoform read iso exons maxMM = some (findAlignment read.length off exons, 0) := by
  obtain ⟨x, hx, hc⟩ := h
  have hml : mmLoop iso x maxMM read 0 0 = (read.length, 0) := by
    have hcm := mmLoop_complete iso x maxMM read 0 0 (by
      unfold countMismatches at hc
      omega)
    unfold countMismatches at hc
    rw [hc] at hcm
    simpa using hcm
  obtain ⟨off, hoff⟩ := isoFold_zero read iso maxMM (List.range (numOffsets iso read)) none
    (Or.inl ⟨x, List.mem_range.mpr hx, hml⟩)
  have hpv := isoFold_prov read iso maxMM (numOffsets iso read)
    (List.range (numOffsets iso read)) none
    (fun y hy => List.mem_range.mp hy) (fun b' hb' => absurd hb' (by simp)) (off, 0) hoff
  have hcount : countMismatches read iso off = 0 := by
    have h0 : mmLoop iso off maxMM read 0 0 = (0 + read.length, 0) := by
      rw [Nat.zero_add]
      exact hpv.2
    have := (mmLoop_completed_eq iso off maxMM read 0 0 0 h0).1
    unfold countMismatches
    omega
  refine ⟨off, hpv.1, hcount, ?_⟩
  unfold alignToIsoform
  rw [hoff]
  rfl

/- ## Lemmas about the gene/isoform scan of align_to_transcriptome -/

theorem transFold_id (read : List Char) (maxMM : Nat) :
    ∀ (l : List TransEntry) (acc : Option (Option (List Piece) × Nat)),
      (∀ e ∈ l, alignToIsoform read e.1 e.2 maxMM = none) →
      l.foldl (transStep read maxMM) acc = acc := by
  intro l
  induction l with
  | nil => intro acc _; rfl
  | cons e l ih =>
    intro acc hl
    have he : transStep read maxMM acc e = acc := by
      unfold transStep
      rw [hl e (List.mem_cons_self e l)]
    simp only [List.foldl_cons, he]
    exact ih acc (fun e' he' => hl e' (List.mem_cons_of_mem _ he'))

theorem transFold_prov (read : List Char) (maxMM : Nat) :
    ∀ (l : List TransEntry) (acc : Option (Option (List Piece) × Nat))
      (b : Option (List Piece) × Nat),
      l.foldl (transStep read maxMM) acc = some b →
      acc = some b ∨ ∃ e ∈ l, alignToIsoform read e.1 e.2 maxMM = some b := by
  intro l
  induction l with
  | nil =>
    intro acc b h
    exact Or.inl h
  | cons e l ih =>
    intro acc b h
    simp only [List.foldl_cons] at h
    rcases ih _ b h with hstep | ⟨e', he', hal⟩
    · unfold transStep at hstep
      split at hstep
      · exact Or.inl hstep
      · rename_i c hal
        split at hstep
        · obtain rfl : c = b := by simpa using hstep
          exact Or.inr ⟨e, List.mem_cons_self e l, hal⟩
        · exact Or.inl hstep
    · exact Or.inr ⟨e', List.mem_cons_of_mem _ he', hal⟩

theorem transFold_zero (read : List Char) (maxMM : Nat) :
    ∀ (l : List TransEntry) (acc : Option (Option (List Piece) × Nat)),
      ((∃ e ∈ l, ∃ fa, alignToIsoform read e.1 e.2 maxMM = some (fa, 0)) ∨
        (∃ b, acc = some b ∧ b.2 = 0)) →
      ∃ a, l.foldl (transStep read maxMM) acc = some (a, 0) := by
  intro l
  induction l with
  | nil =>
    intro acc h
    rcases h with ⟨e, he, _⟩ | ⟨b, hb, hb2⟩
    · exact absurd he (by simp)
    · exact ⟨b.1, by simpa [← hb2] using hb⟩
  | cons e l ih =>
    intro acc h
    simp only [List.foldl_cons]
    rcases h with ⟨e0, he0, fa, hal⟩ | ⟨b, hb, hb2⟩
    · rcases List.mem_cons.mp he0 with rfl | he0'
      · refine ih _ (Or.inr ⟨(fa, 0), ?_, rfl⟩)
        unfold transStep
        rw [hal]
        show (if beatsLe 0 acc = true then some (fa, 0) else acc) = some (fa, 0)
        rw [if_pos (by cases acc <;> simp [beatsLe])]
      · exact ih _ (Or.inl ⟨e0, he0', fa, hal⟩)
    · subst hb
      refine ih _ (Or.inr ?_)
      unfold transStep
      cases hal : alignToIsoform read e.1 e.2 maxMM with
      | none => exact ⟨b, rfl, hb2⟩
      | some c =>
        show ∃ b', (if beatsLe c.2 (some b) = true then some c else some b) = some b' ∧ b'.2 = 0
        by_cases hc : beatsLe c.2 (some b) = true
        · rw [if_pos hc]
          refine ⟨c, rfl, ?_⟩
          simp only [beatsLe, decide_eq_true_eq] at hc
          omega
        · rw [if_neg hc]
          exact ⟨b, rfl, hb2⟩

theorem transFold_keep (read : List Char) (maxMM : Nat) (a : Option (List Piece)) (m : Nat) :
    ∀ (l : List TransEntry),
      (∀ e ∈ l, ∀ c, alignToIsoform read e.1 e.2 maxMM = some c → m < c.2) →
      l.foldl (transStep read maxMM) (some (a, m)) = some (a, m) := by
  intro l
  induction l with
  | nil => intro _; rfl
  | cons e l ih =>
    intro hl
    have he : transStep read maxMM (some (a, m)) e = some (a, m) := by
      unfold transStep
      cases hal : alignToIsoform read e.1 e.2 maxMM with
      | none => rfl
      | some c =>
        show (if beatsLe c.2 (some (a, m)) = true then some c else some (a, m)) = some (a, m)
        rw [if_neg]
        simp only [beatsLe, decide_eq_true_eq, not_le]
        exact hl e (List.mem_cons_self e l) c hal
    simp only [List.foldl_cons, he]
    exact ih (fun e' he' => hl e' (List.mem_cons_of_mem _ he'))

theorem alignToTranscriptome_flatten (read : List Char) (ts : List (List TransEntry))
    (maxMM : Nat) :
    alignToTranscriptome read ts maxMM = ts.flatten.foldl (transStep read maxMM) none := by
  unfold alignToTranscriptome
  rw [List.foldl_flatten]

/- ## Claims C8 and C1 -/

/-- C8: if no isoform of the transcriptome contains the read at any offset
within the mismatch ceiling, align_to_transcriptome returns the no-match
sentinel (-1, inf), modelled as none, rather than raising; and whenever it
returns an alignment, the accompanying mismatch count is at most the
ceiling.  The value of MAX_NUM_MISMATCHES is not part of the snapshot
(it comes from project_nader), so the ceiling is a parameter. -/
theorem c8_sentinel_and_ceiling (read : List Char) (ts : List (List TransEntry)) (maxMM : Nat) :
    ((∀ e ∈ ts.flatten, ¬ containsWithin read e.1 maxMM) →
      alignToTranscriptome read ts maxMM = none) ∧
    (∀ a m, alignToTranscriptome read ts maxMM = some (a, m) → m ≤ maxMM) := by
  constructor
  · intro h
    rw [alignToTranscriptome_flatten]
    exact transFold_id read maxMM ts.flatten none
      (fun e he => alignToIsoform_none_of (h e he))
  · intro a m h
    rw [alignToTranscriptome_flatten] at h
    rcases transFold_prov read maxMM ts.flatten none (a, m) h with hc | ⟨e, _, hal⟩
    · exact absurd hc (by simp)
    · obtain ⟨off, _, hml, _⟩ := alignToIsoform_mm hal
      have h0 : mmLoop e.1 off maxMM read 0 0 = (0 + read.length, m) := by
        rw [Nat.zero_add]
        exact hml
      have hce := mmLoop_completed_eq e.1 off maxMM read 0 0 m h0
      by_cases hre : read = []
      · subst hre
        have h1 := hce.1
        simp only [countMM] at h1
        omega
      · exact hce.2 hre

/-- C8 witness: a transcriptome whose single isoform CC cannot host the
read AA within ceiling 0 yields the sentinel; and a returned match has its
mismatch count below the ceiling. -/
theorem c8_sentinel_and_ceiling_witness :
    alignToTranscriptome ['A','A'] [[(['C','C'], [(0,0,2)])]] 0 = none ∧ (1 : Nat) ≤ 6 := by
  refine ⟨(c8_sentinel_and_ceiling ['A','A'] [[(['C','C'], [(0,0,2)])]] 0).1 (by decide), ?_⟩
  exact (c8_sentinel_and_ceiling ['A','A'] [[(['A','C'], [(0,0,2)])]] 6).2
    (some [(0,0,2)]) 1 (by decide)

/-- C1 (amended): when candidates tie on the fewest mismatch count,
align_to_transcriptome returns the alignment of the LAST encountered
candidate achieving the minimum, in iteration order over genes then
isoforms: if entry e (at some position of the flattened gene/isoform order)
reports mismatch count m, no entry reports fewer, and every entry after e
reports strictly more, then the final result is exactly e's result. -/
theorem c1_tie_goes_to_last (read : List Char) (ts : List (List TransEntry)) (maxMM : Nat)
    (l₁ l₂ : List TransEntry) (e : TransEntry) (a : Option (List Piece)) (m : Nat)
    (hsplit : ts.flatten = l₁ ++ e :: l₂)
    (he : alignToIsoform read e.1 e.2 maxMM = some (a, m))
    (hmin : ∀ e1 ∈ ts.flatten, (m : WithTop Nat) ≤ isoMM read e1 maxMM)
    (hafter : ∀ e2 ∈ l₂, (m : WithTop Nat) < isoMM read e2 maxMM) :
    alignToTranscriptome read ts maxMM = some (a, m) := by
  rw [alignToTranscriptome_flatten, hsplit, List.foldl_append, List.foldl_cons]
  have hstep : transStep read maxMM (l₁.foldl (transStep read maxMM) none) e = some (a, m) := by
    unfold transStep
    rw [he]
    show (if beatsLe m (l₁.foldl (transStep read maxMM) none) = true then some (a, m)
        else l₁.foldl (transStep read maxMM) none) = some (a, m)
    cases hacc : l₁.foldl (transStep read maxMM) none with
    | none => rw [if_pos (by simp [beatsLe])]
    | some b =>
      rcases transFold_prov read maxMM l₁ none b hacc with hc | ⟨e1, he1, hal1⟩
      · exact absurd hc (by simp)
      · have he1' : e1 ∈ ts.flatten := by
          rw [hsplit]
          exact List.mem_append_left _ he1
        have hmle := hmin e1 he1'
        rw [isoMM, hal1] at hmle
        have hmle2 : (m : WithTop Nat) ≤ (b.2 : WithTop Nat) := hmle
        have hm : m ≤ b.2 := by exact_mod_cast hmle2
        rw [if_pos (by simp [beatsLe, hm])]
  rw [hstep]
  refine transFold_keep read maxMM a m l₂ ?_
  intro e2 he2 c hal2
  have hlt := hafter e2 he2
  rw [isoMM, hal2] at hlt
  have hlt2 : (m : WithTop Nat) < (c.2 : WithTop Nat) := hlt
  exact_mod_cast hlt2

/-- C1 amended-claim witness: with isoform AA (0 mismatches) followed by
isoform AC (1 mismatch), the unique minimum is the first entry and the
result is its alignment. -/
theorem c1_tie_goes_to_last_witness :
    alignToIsoform ['A','A'] ['A','A'] [(0,10,2)] 6 = some (some [(0,10,2)], 0) ∧
    alignToTranscriptome ['A','A']
      [[(['A','A'], [(0,10,2)])], [(['A','C'], [(0,20,2)])]] 6 =
      some (some [(0,10,2)], 0) := by
  have he : alignToIsoform ['A','A'] ['A','A'] [(0,10,2)] 6 = some (some [(0,10,2)], 0) := by
    decide
  refine ⟨he, ?_⟩
  exact c1_tie_goes_to_last ['A','A']
    [[(['A','A'], [(0,10,2)])], [(['A','C'], [(0,20,2)])]] 6
    [] [(['A','C'], [(0,20,2)])] (['A','A'], [(0,10,2)]) (some [(0,10,2)]) 0
    (by decide) he (by decide) (by decide)

/- ## Claim C6: the seed mismatch budget -/

theorem foldl_pres {α β : Type} (P : β → Prop) (f : β → α → β)
    (hf : ∀ b a, P b → P (f b a)) : ∀ (l : List α) (b : β), P b → P (l.foldl f b) := by
  intro l
  induction l with
  | nil => intro b hb; exact hb
  | cons a l ih => intro b hb; exact ih (f b a) (hf b a hb)

theorem seedPass_mm (idx : FMIndex) (origRead : List Char) (lenRead length : Nat)
    (st : SeedState) (m : Nat) (h : st.mm < m) :
    (seedPass idx origRead lenRead length st).1.mm ≤ m := by
  unfold seedPass
  refine foldl_pres (fun acc => acc.1.mm ≤ m) _ ?_ _ (st, false) (le_of_lt h)
  intro b a hb
  dsimp only
  split
  · show st.mm + 1 ≤ m
    omega
  · exact hb

theorem seedLoop_mm (idx : FMIndex) (origRead : List Char) (lenRead length mismatches : Nat) :
    ∀ (fuel : Nat) (st : SeedState) (upd : Bool), st.mm ≤ mismatches →
      (seedLoop idx origRead lenRead length mismatches fuel st upd).mm ≤ mismatches := by
  intro fuel
  induction fuel with
  | zero =>
    intro st upd h
    simpa [seedLoop] using h
  | succ n ih =>
    intro st upd h
    simp only [seedLoop]
    split
    · rename_i hcond
      exact ih _ _ (seedPass_mm idx origRead lenRead length st mismatches hcond.1)
    · exact h

theorem seedTopState_mm (idx : FMIndex) (readSeq : List Char) (m : Nat) :
    (seedTopState idx readSeq m).mm ≤ m := by
  unfold seedTopState
  exact seedLoop_mm idx readSeq.reverse readSeq.reverse.length
    (exactSuffixMatches idx readSeq.reverse).2 m (readSeq.reverse.length + 2) _ true
    (Nat.zero_le m)

/-- C6: no seed reported by find_seeds carries a consumed-mismatch count
above the budget m, and when the top seed does not cover the read the
reported list is that seed followed by the seeds of a recursive call on the
unmatched remainder with seed count k - 1 and budget m reduced by the
mismatches the top seed consumed. -/
theorem c6_seed_budget (idx : FMIndex) :
    ∀ (k : Nat) (readSeq : List Char) (m : Nat) (seeds : List Seed),
      findSeeds idx k readSeq m = some seeds →
      (∀ s ∈ seeds, s.2.2.1 ≤ m) ∧
      (∀ k0, k = k0 + 1 → readSeq.length ≠ (seedTopState idx readSeq m).len →
        ∃ pLo pHi rest,
          idx.sa.get? (seedTopState idx readSeq m).lo = some pLo ∧
          idx.sa.get? (seedTopState idx readSeq m).hi = some pHi ∧
          findSeeds idx k0
            ((seedTopState idx readSeq m).read.take
              ((seedTopState idx readSeq m).read.length - (seedTopState idx readSeq m).len))
            (m - (seedTopState idx readSeq m).mm) = some rest ∧
          seeds = ([pLo, pHi], (seedTopState idx readSeq m).len, (seedTopState idx readSeq m).mm,
            (seedTopState idx readSeq m).read.drop
              (readSeq.length - (seedTopState idx readSeq m).len)) :: rest) := by
  intro k
  induction k with
  | zero =>
    intro readSeq m seeds h
    have hs : seeds = [] := by simpa [findSeeds] using h.symm
    subst hs
    exact ⟨by simp, fun k0 hk => absurd hk (by omega)⟩
  | succ k ih =>
    intro readSeq m seeds h
    simp only [findSeeds] at h
    split at h
    · rename_i pLo pHi hlo hhi
      split at h
      · rename_i hcov
        obtain rfl : [(([pLo, pHi], (seedTopState idx readSeq m).len,
            (seedTopState idx readSeq m).mm,
            (seedTopState idx readSeq m).read.drop
              (readSeq.length - (seedTopState idx readSeq m).len)) : Seed)] = seeds := by
          simpa using h
        refine ⟨?_, fun k0 _ hne => absurd hcov hne⟩
        intro s hs
        obtain rfl : s = (([pLo, pHi], (seedTopState idx readSeq m).len,
            (seedTopState idx readSeq m).mm,
            (seedTopState idx readSeq m).read.drop
              (readSeq.length - (seedTopState idx readSeq m).len)) : Seed) := by
          simpa using hs
        exact seedTopState_mm idx readSeq m
      · rename_i hncov
        rw [Option.map_eq_some'] at h
        obtain ⟨rest, hrest, rfl⟩ := h
        constructor
        · intro s hs
          rcases List.mem_cons.mp hs with rfl | hs'
          · exact seedTopState_mm idx readSeq m
          · exact le_trans ((ih _ _ _ hrest).1 s hs') (Nat.sub_le m _)
        · intro k0 hk hne
          obtain rfl : k = k0 := by omega
          exact ⟨pLo, pHi, rest, hlo, hhi, hrest, rfl⟩
    · exact absurd h (by simp)

/-- C6 witness: the TACT/TGAA run reports two seeds, with 1 and 0
mismatches, both within the budget 6. -/
theorem c6_seed_budget_witness :
    findSeeds (buildIndex ['T','A','C','T','$']) 3 ['T','G','A','A'] 6 =
      some [([1,2], 3, 1, ['A','C','T']), ([1,2], 1, 0, ['A'])] ∧
    (∀ s ∈ [(([1,2], 3, 1, ['A','C','T']) : Seed), ([1,2], 1, 0, ['A'])], s.2.2.1 ≤ 6) := by
  have h : findSeeds (buildIndex ['T','A','C','T','$']) 3 ['T','G','A','A'] 6 =
      some [([1,2], 3, 1, ['A','C','T']), ([1,2], 1, 0, ['A'])] := by decide
  exact ⟨h, (c6_seed_budget (buildIndex ['T','A','C','T','$']) 3 ['T','G','A','A'] 6 _ h).1⟩

/- ## Claim C7: the high_bound gap filter of check_seeds -/

theorem checkSeedsGo_mem (sa : List Nat) (glen L : Nat) (hb : Option Int) :
    ∀ (is2 : List Nat) (vs : List Int), checkSeedsGo sa glen L hb is2 = some vs →
      ∀ p : Int, p ∈ vs ↔ ∃ i ∈ is2, ∃ sai, sa.get? i = some sai ∧
        keepB hb ((sai : Int) + L) = true ∧ p = (glen : Int) + 1 - ((sai : Int) + L) := by
  intro is2
  induction is2 with
  | nil =>
    intro vs h p
    have hv : vs = [] := by simpa [checkSeedsGo] using h.symm
    subst hv
    simp
  | cons i rest ih =>
    intro vs h p
    simp only [checkSeedsGo] at h
    split at h
    · exact absurd h (by simp)
    · rename_i sai hsai
      split at h
      · exact absurd h (by simp)
      · rename_i vs' hvs'
        obtain rfl : (if keepB hb ((sai : Int) + L) = true then
            ((glen : Int) + 1 - ((sai : Int) + L)) :: vs' else vs') = vs := by
          simpa using h
        constructor
        · intro hp
          by_cases hk : keepB hb ((sai : Int) + L) = true
          · rw [if_pos hk] at hp
            rcases List.mem_cons.mp hp with rfl | hp'
            · exact ⟨i, List.mem_cons_self i rest, sai, hsai, hk, rfl⟩
            · obtain ⟨i', hi', w⟩ := (ih vs' hvs' p).mp hp'
              exact ⟨i', List.mem_cons_of_mem _ hi', w⟩
          · rw [if_neg hk] at hp
            obtain ⟨i', hi', w⟩ := (ih vs' hvs' p).mp hp
            exact ⟨i', List.mem_cons_of_mem _ hi', w⟩
        · rintro ⟨i', hi', sai', hsai', hk', hp'⟩
          rcases List.mem_cons.mp hi' with rfl | hmem
          · obtain rfl : sai = sai' := by
              rw [hsai] at hsai'
              simpa using hsai'
            rw [if_pos hk']
            exact hp' ▸ List.mem_cons_self _ _
          · have hmem2 : p ∈ vs' := (ih vs' hvs' p).mpr ⟨i', hmem, sai', hsai', hk', hp'⟩
            split
            · exact List.mem_cons_of_mem _ hmem2
            · exact hmem2

/-- C7 (amended): when a NONZERO high_bound is supplied to check_seeds, a
candidate genome position is kept if and only if its implied downstream gap
high_bound - (sa[i] + length) lies within
[MIN_INTRON_SIZE, MAX_INTRON_SIZE] = [20, 10000]; every position violating
this is discarded even if it matched with zero mismatches.  When no
high_bound is supplied — or when high_bound is 0, which Python's truthiness
test treats like an absent bound — all positions of the interval are
kept. -/
theorem c7_gap_filter (sa : List Nat) (glen : Nat) (lo hi L : Nat) (hb : Option Int)
    (vs : List Int) (h : checkSeeds sa glen (lo, hi) L hb = some vs) :
    (∀ h0 : Int, hb = some h0 → h0 ≠ 0 → ∀ p : Int,
      p ∈ vs ↔ ∃ i, lo ≤ i ∧ i < hi ∧ ∃ sai, sa.get? i = some sai ∧
        MIN_INTRON_SIZE ≤ h0 - ((sai : Int) + L) ∧ h0 - ((sai : Int) + L) ≤ MAX_INTRON_SIZE ∧
        p = (glen : Int) + 1 - ((sai : Int) + L)) ∧
    ((hb = none ∨ hb = some 0) → ∀ p : Int,
      p ∈ vs ↔ ∃ i, lo ≤ i ∧ i < hi ∧ ∃ sai, sa.get? i = some sai ∧
        p = (glen : Int) + 1 - ((sai : Int) + L)) := by
  unfold checkSeeds at h
  have hmem := checkSeedsGo_mem sa glen L hb (List.range' lo (hi - lo)) vs h
  have hrange : ∀ i : Nat, i ∈ List.range' lo (hi - lo) ↔ lo ≤ i ∧ i < hi := by
    intro i
    rw [List.mem_range'_1]
    omega
  constructor
  · intro h0 hhb hne p
    subst hhb
    rw [hmem p]
    constructor
    · rintro ⟨i, hi', sai, hsai, hk, hp⟩
      rw [hrange i] at hi'
      rw [keepB, if_neg hne, decide_eq_true_iff] at hk
      exact ⟨i, hi'.1, hi'.2, sai, hsai, hk.2.1, hk.2.2, hp⟩
    · rintro ⟨i, h1, h2, sai, hsai, hg1, hg2, hp⟩
      refine ⟨i, (hrange i).mpr ⟨h1, h2⟩, sai, hsai, ?_, hp⟩
      rw [keepB, if_neg hne, decide_eq_true_iff]
      refine ⟨?_, hg1, hg2⟩
      have hmin : (20 : Int) = MIN_INTRON_SIZE := rfl
      unfold MIN_INTRON_SIZE at hg1
      omega
  · intro hhb p
    rw [hmem p]
    have hk : ∀ loc : Int, keepB hb loc = true := by
      intro loc
      rcases hhb with rfl | rfl
      · rfl
      · rw [keepB, if_pos rfl]
    constructor
    · rintro ⟨i, hi', sai, hsai, _, hp⟩
      rw [hrange i] at hi'
      exact ⟨i, hi'.1, hi'.2, sai, hsai, hp⟩
    · rintro ⟨i, h1, h2, sai, hsai, hp⟩
      exact ⟨i, (hrange i).mpr ⟨h1, h2⟩, sai, hsai, hk _, hp⟩

/-- C7 amended-claim witness: with high_bound 50, position sa[0] = 0 has
gap 47 inside the window and is kept; position sa[1] = 100 lies past the
bound and is discarded. -/
theorem c7_gap_filter_witness :
    checkSeeds [0, 100] 5 (0, 2) 3 (some 50) = some [3] ∧ (3 : Int) ∈ ([3] : List Int) := by
  have h : checkSeeds [0, 100] 5 (0, 2) 3 (some 50) = some [3] := by decide
  refine ⟨h, ?_⟩
  refine ((c7_gap_filter [0, 100] 5 0 2 3 (some 50) [3] h).1 50 rfl (by decide) 3).mpr ?_
  exact ⟨0, by omega, by omega, 0, rfl, by decide, by decide, by decide⟩

/- ## Claim C4: structure of the built transcriptome entries -/

theorem buildEntryGo_spec (genome : List Char) :
    ∀ (exs : List (Nat × Nat)) (iso : List Char) (tbl : List (Int × Int × Int)) (tot : Int),
      buildEntryGo genome exs iso tbl tot =
        (iso ++ sliceCat genome exs, tbl ++ tableGo exs tot, tot + totalFor exs) := by
  intro exs
  induction exs with
  | nil =>
    intro iso tbl tot
    simp [buildEntryGo, sliceCat, tableGo, totalFor]
  | cons se rest ih =>
    intro iso tbl tot
    simp only [buildEntryGo, sliceCat, tableGo, totalFor, List.map_cons, List.sum_cons]
    rw [ih]
    simp [List.append_assoc, List.singleton_append, add_assoc, totalFor, exLen]

theorem buildEntry_eq (genome : List Char) (exs : List (Nat × Nat)) :
    buildEntry genome exs = (sliceCat genome exs, tableFor exs) := by
  unfold buildEntry tableFor
  rw [buildEntryGo_spec]
  simp

theorem sliceCat_length_int (genome : List Char) :
    ∀ (exs : List (Nat × Nat)), wfExons genome exs →
      ((sliceCat genome exs).length : Int) = totalFor exs := by
  intro exs
  induction exs with
  | nil =>
    intro _
    simp [sliceCat, totalFor]
  | cons se rest ih =>
    intro hwf
    have hse := hwf se (List.mem_cons_self se rest)
    have hr := ih (fun x hx => hwf x (List.mem_cons_of_mem _ hx))
    have hsl : (pySlice genome se.1 se.2).length = se.2 - se.1 := by
      unfold pySlice
      simp only [List.length_take, List.length_drop]
      omega
    simp only [sliceCat, List.length_append, totalFor, List.map_cons, List.sum_cons] at hr ⊢
    rw [hsl]
    have hex : exLen se = (se.2 : Int) - (se.1 : Int) := rfl
    omega

theorem tableGo_length : ∀ (exs : List (Nat × Nat)) (tot : Int),
    (tableGo exs tot).length = exs.length := by
  intro exs
  induction exs with
  | nil => intro tot; rfl
  | cons se rest ih => intro tot; simp [tableGo, ih]

theorem tableFor_length (exs : List (Nat × Nat)) : (tableFor exs).length = exs.length :=
  tableGo_length exs 0

theorem cumFor_zero (exs : List (Nat × Nat)) : cumFor exs 0 = 0 := by
  simp [cumFor]

theorem cumFor_succ (exs : List (Nat × Nat)) (k : Nat) (hk : k < exs.length) :
    cumFor exs (k + 1) = cumFor exs k + exLen (exs.getD k (0, 0)) := by
  unfold cumFor
  rw [List.take_succ, List.getElem?_eq_getElem hk, List.getD_eq_getElem exs (0, 0) hk]
  rw [List.map_append, List.sum_append]
  simp only [Option.toList_some, List.map_cons, List.map_nil, List.sum_cons, List.sum_nil]
  omega

theorem cumFor_clamp (exs : List (Nat × Nat)) (k : Nat) (hk : exs.length ≤ k) :
    cumFor exs k = totalFor exs := by
  unfold cumFor totalFor
  rw [List.take_of_length_le hk]

theorem cumFor_le_succ (exs : List (Nat × Nat)) (hnn : ∀ se ∈ exs, 0 ≤ exLen se) (k : Nat) :
    cumFor exs k ≤ cumFor exs (k + 1) := by
  by_cases hk : k < exs.length
  · rw [cumFor_succ exs k hk]
    have := hnn (exs.getD k (0, 0)) (getD_mem_of_lt _ hk)
    omega
  · rw [cumFor_clamp exs k (by omega), cumFor_clamp exs (k + 1) (by omega)]

theorem cumFor_mono (exs : List (Nat × Nat)) (hnn : ∀ se ∈ exs, 0 ≤ exLen se)
    {j k : Nat} (h : j ≤ k) : cumFor exs j ≤ cumFor exs k := by
  induction k, h using Nat.le_induction with
  | base => exact le_refl _
  | succ k hk ih => exact le_trans ih (cumFor_le_succ exs hnn k)

theorem get?_eq_some_getD {α : Type} {l : List α} {k : Nat} (d : α) (h : k < l.length) :
    l.get? k = some (l.getD k d) := by
  rw [List.getD_eq_getElem l d h]
  simp [List.getElem?_eq_getElem h]

theorem tableGo_getD : ∀ (exs : List (Nat × Nat)) (tot : Int) (k : Nat), k < exs.length →
    (tableGo exs tot).getD k (0, 0, 0) =
      (tot + cumFor exs k, ((exs.getD k (0, 0)).1 : Int), exLen (exs.getD k (0, 0))) := by
  intro exs
  induction exs with
  | nil =>
    intro tot k hk
    simp at hk
  | cons se rest ih =>
    intro tot k hk
    cases k with
    | zero => simp [tableGo, cumFor]
    | succ k =>
      simp only [tableGo, List.getD_cons_succ]
      rw [ih (tot + exLen se) k (by simpa using hk)]
      have hcs : cumFor (se :: rest) (k + 1) = exLen se + cumFor rest k := by
        unfold cumFor
        simp [List.take_succ_cons]
      rw [hcs]
      simp [add_assoc]

theorem pythonGet_tableFor (exs : List (Nat × Nat)) (k : Nat) (hk : k < exs.length) :
    pythonGet (tableFor exs) (k : Int) =
      some (cumFor exs k, ((exs.getD k (0, 0)).1 : Int), exLen (exs.getD k (0, 0))) := by
  unfold pythonGet
  rw [if_pos (Int.natCast_nonneg k)]
  rw [Int.toNat_natCast]
  rw [get?_eq_some_getD (0, 0, 0) (by rw [tableFor_length]; exact hk)]
  unfold tableFor
  rw [tableGo_getD exs 0 k hk]
  simp

/-- Existence of the exon containing a spliced offset A, scanning from exon
m upward. -/
theorem cum_exists_from (exs : List (Nat × Nat)) (A : Int) :
    ∀ (n m : Nat), n = exs.length - m → m ≤ exs.length → cumFor exs m ≤ A →
      A < totalFor exs →
      ∃ k, m ≤ k ∧ k < exs.length ∧ cumFor exs k ≤ A ∧ A < cumFor exs (k + 1) := by
  intro n
  induction n with
  | zero =>
    intro m hn hm hA htot
    have hme : m = exs.length := by omega
    subst hme
    rw [cumFor_clamp exs exs.length (le_refl _)] at hA
    omega
  | succ n ih =>
    intro m hn hm hA htot
    have hmlt : m < exs.length := by
      rcases Nat.lt_or_ge m exs.length with h | h
      · exact h
      · rw [cumFor_clamp exs m h] at hA
        omega
    by_cases hnext : A < cumFor exs (m + 1)
    · exact ⟨m, le_refl m, hmlt, hA, hnext⟩
    · obtain ⟨k, hk1, hk2, hk3, hk4⟩ := ih (m + 1) (by omega) (by omega) (by omega) htot
      exact ⟨k, by omega, hk2, hk3, hk4⟩

theorem cum_exists (exs : List (Nat × Nat)) (A : Int) (hA : 0 ≤ A) (htot : A < totalFor exs) :
    ∃ k, k < exs.length ∧ cumFor exs k ≤ A ∧ A < cumFor exs (k + 1) := by
  obtain ⟨k, _, h2, h3, h4⟩ := cum_exists_from exs A exs.length 0 (by omega) (by omega)
    (by rw [cumFor_zero]; exact hA) htot
  exact ⟨k, h2, h3, h4⟩

/-- One unfolding step of the binary search when the probed access
succeeds. -/
theorem findStartLocation_step (exons : List (Int × Int × Int)) (A : Int) (fuel : Nat)
    (lo hi : Int) (t : Int × Int × Int) (hpg : pythonGet exons ((lo + hi) / 2) = some t) :
    findStartLocation exons A (fuel + 1) lo hi =
      if t.1 ≤ A ∧ A < t.1 + t.2.2 then some ((lo + hi) / 2)
      else if t.1 + t.2.2 ≤ A then findStartLocation exons A fuel ((lo + hi) / 2 + 1) hi
      else findStartLocation exons A fuel lo ((lo + hi) / 2 - 1) := by
  simp only [findStartLocation]
  rw [hpg]

/-- Correctness of the binary search of find_alignment over a well-formed
prefix table: it returns the index of the exon containing A. -/
theorem findStart_ok (exs : List (Nat × Nat)) (A : Int)
    (hnn : ∀ se ∈ exs, 0 ≤ exLen se) (k : Nat) (hk : k < exs.length)
    (hA1 : cumFor exs k ≤ A) (hA2 : A < cumFor exs (k + 1)) :
    ∀ (fuel : Nat) (lo hi : Int), 0 ≤ lo → lo ≤ (k : Int) → (k : Int) ≤ hi →
      hi ≤ (exs.length : Int) → hi - lo < fuel →
      findStartLocation (tableFor exs) A fuel lo hi = some (k : Int) := by
  intro fuel
  induction fuel with
  | zero =>
    intro lo hi _ h1 h2 _ hf
    omega
  | succ n ih =>
    intro lo hi h0 h1 h2 h3 hf
    have hmid0 : 0 ≤ (lo + hi) / 2 := by omega
    have hmidk : ((lo + hi) / 2).toNat < exs.length := by omega
    have hmid : (((lo + hi) / 2).toNat : Int) = (lo + hi) / 2 := by omega
    have hpg := pythonGet_tableFor exs ((lo + hi) / 2).toNat hmidk
    rw [hmid] at hpg
    rw [findStartLocation_step (tableFor exs) A n lo hi _ hpg]
    have hcsucc := cumFor_succ exs ((lo + hi) / 2).toNat hmidk
    by_cases hc1 : cumFor exs ((lo + hi) / 2).toNat ≤ A ∧
        A < cumFor exs ((lo + hi) / 2).toNat + exLen (exs.getD ((lo + hi) / 2).toNat (0, 0))
    · rw [if_pos hc1]
      have hkeq : ((lo + hi) / 2).toNat = k := by
        by_contra hne
        rcases Nat.lt_or_ge ((lo + hi) / 2).toNat k with hlt | hge
        · have hmono := cumFor_mono exs hnn
            (show ((lo + hi) / 2).toNat + 1 ≤ k by omega)
          omega
        · have hmono := cumFor_mono exs hnn
            (show k + 1 ≤ ((lo + hi) / 2).toNat by omega)
          omega
      exact congrArg some (by omega)
    · rw [if_neg hc1]
      by_cases hc2 : cumFor exs ((lo + hi) / 2).toNat + exLen (exs.getD ((lo + hi) / 2).toNat (0, 0)) ≤ A
      · rw [if_pos hc2]
        have hkgt : ((lo + hi) / 2).toNat < k := by
          by_contra hge
          have hmono := cumFor_mono exs hnn (show k + 1 ≤ ((lo + hi) / 2).toNat + 1 by omega)
          omega
        exact ih ((lo + hi) / 2 + 1) hi (by omega) (by omega) h2 h3 (by omega)
      · rw [if_neg hc2]
        have hAlt : A < cumFor exs ((lo + hi) / 2).toNat := by omega
        have hklt : k < ((lo + hi) / 2).toNat := by
          by_contra hge
          have hmono := cumFor_mono exs hnn (show ((lo + hi) / 2).toNat ≤ k by omega)
          omega
        exact ih lo ((lo + hi) / 2 - 1) h0 h1 (by omega) (by omega) (by omega)

/-- One unfolding step of the piece-building loop when the next exon access
succeeds. -/
theorem pieceLoop_step (exons : List (Int × Int × Int)) (fuel : Nat) (rl i : Int)
    (prev : Piece) (c s L : Int) (hrl : 0 < rl) (hpg : pythonGet exons (i + 1) = some (c, s, L)) :
    pieceLoop exons (fuel + 1) rl i prev =
      (pieceLoop exons fuel (rl - L) (i + 1)
        (prev.1 + prev.2.2, s, if rl ≤ L then rl else L)).map
        (fun l => (prev.1 + prev.2.2, s, if rl ≤ L then rl else L) :: l) := by
  simp only [pieceLoop]
  rw [if_pos hrl, hpg]

theorem pieceLoop_nil (exons : List (Int × Int × Int)) (fuel : Nat) (rl i : Int)
    (prev : Piece) (hrl : ¬ 0 < rl) : pieceLoop exons (fuel + 1) rl i prev = some [] := by
  simp only [pieceLoop]
  rw [if_neg hrl]

theorem exon_end_eq (exs : List (Nat × Nat)) (k : Nat) :
    ((exs.getD k (0, 0)).1 : Int) + exLen (exs.getD k (0, 0)) = ((exs.getD k (0, 0)).2 : Int) := by
  unfold exLen
  ring

/-- The while-loop of find_alignment, run with enough fuel over a
well-formed prefix table with enough remaining capacity, succeeds, covers
exactly the remaining read length, and chains across exon junctions. -/
theorem pieceLoop_ok (exs : List (Nat × Nat))
    (hpos : ∀ k, k < exs.length → 0 < exLen (exs.getD k (0, 0)))
    (hnn : ∀ se ∈ exs, 0 ≤ exLen se) :
    ∀ (fuel i : Nat) (rl : Int) (prev : Piece),
      exs.length < i + fuel → i ≤ exs.length →
      rl ≤ totalFor exs - cumFor exs (i + 1) →
      (0 < rl → prev.2.1 + prev.2.2 = ((exs.getD i (0, 0)).2 : Int)) →
      ∃ tail, pieceLoop (tableFor exs) fuel rl (i : Int) prev = some tail ∧
        sumLens tail = max rl 0 ∧ junctChain exs i prev tail := by
  intro fuel
  induction fuel with
  | zero =>
    intro i rl prev hfuel hile _ _
    exact absurd hfuel (by omega)
  | succ n ih =>
    intro i rl prev hfuel hile hcap hprev
    by_cases hrl : 0 < rl
    · have hi1 : i + 1 < exs.length := by
        by_contra hge
        rw [cumFor_clamp exs (i + 1) (by omega)] at hcap
        omega
      have hpg := pythonGet_tableFor exs (i + 1) hi1
      push_cast at hpg
      rw [pieceLoop_step (tableFor exs) n rl (i : Int) prev _ _ _ hrl hpg]
      have hcsucc := cumFor_succ exs (i + 1) hi1
      obtain ⟨tail', htail', hsum', hjc'⟩ := ih (i + 1)
        (rl - exLen (exs.getD (i + 1) (0, 0)))
        ((prev.1 + prev.2.2, ((exs.getD (i + 1) (0, 0)).1 : Int),
          if rl ≤ exLen (exs.getD (i + 1) (0, 0)) then rl
          else exLen (exs.getD (i + 1) (0, 0))))
        (by omega) (by omega) (by omega)
        (by
          intro hpos2
          dsimp only
          rw [if_neg (by omega)]
          exact exon_end_eq exs (i + 1))
      push_cast at htail'
      refine ⟨_ :: tail', by rw [htail']; rfl, ?_, ?_⟩
      · unfold sumLens at hsum' ⊢
        simp only [List.map_cons, List.sum_cons]
        rw [hsum']
        rcases le_or_lt rl (exLen (exs.getD (i + 1) (0, 0))) with hc | hc
        · rw [if_pos hc, max_eq_right (by omega : rl - exLen (exs.getD (i + 1) (0, 0)) ≤ 0),
            max_eq_left (le_of_lt hrl)]
          ring
        · rw [if_neg (by omega), max_eq_left (by omega : (0 : Int) ≤ rl - exLen (exs.getD (i + 1) (0, 0))),
            max_eq_left (le_of_lt hrl)]
          ring
      · exact ⟨hi1, hprev hrl, rfl, hjc'⟩
    · refine ⟨[], pieceLoop_nil _ n rl _ prev hrl, ?_, trivial⟩
      rw [max_eq_right (by omega : rl ≤ (0 : Int))]
      rfl

/-- A junction chain yields the claim's junction property for the full
piece list. -/
theorem junctChain_ok (exs : List (Nat × Nat)) :
    ∀ (tail : List Piece) (i : Nat) (prev : Piece), junctChain exs i prev tail →
      junctionOk exs (prev :: tail) := by
  intro tail
  induction tail with
  | nil =>
    intro i prev _ t ht
    exact absurd ht (by simp)
  | cons q rest ihq =>
    intro i prev hjc t ht
    obtain ⟨hi1, hpe, hqs, hrest⟩ := hjc
    cases t with
    | zero => exact ⟨i, hi1, hpe, hqs⟩
    | succ t =>
      obtain ⟨k, hk, h1, h2⟩ := ihq (i + 1) q hrest t (by simpa using ht)
      exact ⟨k, hk, h1, h2⟩

/-- One unfolding of find_alignment when both the search and the table
access succeed. -/
theorem findAlignment_step (exons : List (Int × Int × Int)) (R A : Int) (i : Int)
    (c s L : Int)
    (hs : findStartLocation exons A (exons.length + 1) 0 exons.length = some i)
    (hg : pythonGet exons i = some (c, s, L)) :
    findAlignment R A exons =
      (pieceLoop exons (exons.length + 1) (R - (L - (A - c))) i
        (0, s + (A - c), if R + (A - c) ≤ L then R else L - (A - c))).map
        (fun l => (0, s + (A - c), if R + (A - c) ≤ L then R else L - (A - c)) :: l) := by
  unfold findAlignment
  rw [hs]
  dsimp only
  rw [hg]

/-- find_alignment on a well-formed exon prefix table, at an in-range
spliced offset with enough capacity, returns an alignment whose piece
lengths sum to the read length and whose piece boundaries all fall on exon
junctions. -/
theorem findAlignment_ok (exs : List (Nat × Nat)) (hwf : ∀ se ∈ exs, se.1 < se.2)
    (R A : Int) (hA : 0 ≤ A) (hR : 0 < R) (hcap : A + R ≤ totalFor exs) :
    ∃ algn, findAlignment R A (tableFor exs) = some algn ∧
      sumLens algn = R ∧ junctionOk exs algn := by
  have hnn : ∀ se ∈ exs, 0 ≤ exLen se := by
    intro se hse
    have := hwf se hse
    unfold exLen
    omega
  have hpos : ∀ k, k < exs.length → 0 < exLen (exs.getD k (0, 0)) := by
    intro k hk
    have := hwf _ (getD_mem_of_lt (0, 0) hk)
    unfold exLen
    omega
  obtain ⟨k, hk, hA1, hA2⟩ := cum_exists exs A hA (by omega)
  have hlen : (tableFor exs).length = exs.length := tableFor_length exs
  have hs : findStartLocation (tableFor exs) A ((tableFor exs).length + 1) 0
      ((tableFor exs).length : Int) = some (k : Int) := by
    rw [hlen]
    exact findStart_ok exs A hnn k hk hA1 hA2 (exs.length + 1) 0 (exs.length : Int)
      (by omega) (by omega) (by omega) (by omega) (by omega)
  have hg := pythonGet_tableFor exs k hk
  rw [findAlignment_step (tableFor exs) R A (k : Int) _ _ _ hs hg]
  have hcsucc := cumFor_succ exs k hk
  obtain ⟨tail, htail, hsum, hjc⟩ := pieceLoop_ok exs hpos hnn (exs.length + 1) k
    (R - (exLen (exs.getD k (0, 0)) - (A - cumFor exs k)))
    ((0, ((exs.getD k (0, 0)).1 : Int) + (A - cumFor exs k),
      if R + (A - cumFor exs k) ≤ exLen (exs.getD k (0, 0)) then R
      else exLen (exs.getD k (0, 0)) - (A - cumFor exs k)))
    (by omega) (by omega) (by omega)
    (by
      intro hpos2
      dsimp only
      rw [if_neg (by omega)]
      have hee := exon_end_eq exs k
      omega)
  rw [hlen]
  refine ⟨_ :: tail, by rw [htail]; rfl, ?_, ?_⟩
  · unfold sumLens at hsum ⊢
    simp only [List.map_cons, List.sum_cons]
    rw [hsum]
    rcases le_or_lt (R + (A - cumFor exs k)) (exLen (exs.getD k (0, 0))) with hc | hc
    · rw [if_pos hc,
        max_eq_right (by omega : R - (exLen (exs.getD k (0, 0)) - (A - cumFor exs k)) ≤ 0)]
      ring
    · rw [if_neg (by omega),
        max_eq_left (by omega : (0 : Int) ≤ R - (exLen (exs.getD k (0, 0)) - (A - cumFor exs k)))]
      ring
  · exact junctChain_ok exs tail k _ hjc

theorem countMM_zero_aux (iso : List Char) (off : Nat) :
    ∀ (rest : List Char) (j : Nat),
      (∀ t < rest.length, iso.getD (off + (j + t)) 'A' = rest.getD t 'A') →
      countMM iso off rest j = 0 := by
  intro rest
  induction rest with
  | nil => intro j _; rfl
  | cons c rest ih =>
    intro j hyp
    simp only [countMM]
    have h0 : iso.getD (off + j) 'A' = c := by
      have h := hyp 0 (by simp)
      simpa using h
    have hd : mmDelta iso off j c = 0 := by
      unfold mmDelta
      rw [if_neg (not_not_intro h0)]
    rw [hd, ih (j + 1) ?_]
    intro t htl
    have h := hyp (t + 1) (by simpa using htl)
    rw [show j + (t + 1) = j + 1 + t by omega] at h
    simpa using h

theorem countMismatches_zero_of_occursAt {read iso : List Char} {off : Nat}
    (h : occursAt read iso off) : countMismatches read iso off = 0 := by
  unfold countMismatches
  refine countMM_zero_aux iso off read 0 ?_
  intro t htl
  have h2 := h.2 t htl
  simpa using h2

/-- C4: a read occurring verbatim in the spliced sequence of some isoform
of the transcriptome (all of whose entries were built by the notebook's
transcriptome loop from spec-invariant exon coordinates) is reported by
align_to_transcriptome with 0 mismatches and an alignment whose piece
lengths sum to the read length; every boundary between consecutive pieces —
in particular the single boundary of a match spanning two exons — falls
exactly at an exon junction of the winning entry's exon list. -/
theorem c4_verbatim_read (genome read : List Char) (ts : List (List TransEntry)) (maxMM : Nat)
    (hwf : ∀ gene ∈ ts, ∀ e ∈ gene, ∃ exs, wfExons genome exs ∧ e = buildEntry genome exs)
    (hrlen : 1 ≤ read.length)
    (hocc : ∃ gene ∈ ts, ∃ e ∈ gene, ∃ off, occursAt read e.1 off) :
    ∃ algn, alignToTranscriptome read ts maxMM = some (some algn, 0) ∧
      sumLens algn = (read.length : Int) ∧
      ∃ gene ∈ ts, ∃ e ∈ gene, ∃ exs, wfExons genome exs ∧ e = buildEntry genome exs ∧
        junctionOk exs algn := by
  obtain ⟨gene0, hg0, e0, he0, off0, hocc0⟩ := hocc
  have hoffN : off0 < numOffsets e0.1 read := by
    have h1 := hocc0.1
    unfold numOffsets
    omega
  have hc0 : countMismatches read e0.1 off0 = 0 := countMismatches_zero_of_occursAt hocc0
  obtain ⟨off0b, _, _, hal0⟩ := alignToIsoform_zero e0.2 maxMM ⟨off0, hoffN, hc0⟩
  have he0f : e0 ∈ ts.flatten := List.mem_flatten.mpr ⟨gene0, hg0, he0⟩
  obtain ⟨a, hfold⟩ := transFold_zero read maxMM ts.flatten none
    (Or.inl ⟨e0, he0f, findAlignment read.length off0b e0.2, hal0⟩)
  have hres : alignToTranscriptome read ts maxMM = some (a, 0) := by
    rw [alignToTranscriptome_flatten]
    exact hfold
  rcases transFold_prov read maxMM ts.flatten none (a, 0) hfold with hc | ⟨e1, he1f, hal1⟩
  · exact absurd hc (by simp)
  · obtain ⟨gene1, hg1, he1⟩ := List.mem_flatten.mp he1f
    obtain ⟨exs1, hwf1, hbe1⟩ := hwf gene1 hg1 e1 he1
    obtain ⟨off1, hoff1N, _, ha1⟩ := alignToIsoform_mm hal1
    have hbe1' : e1 = (sliceCat genome exs1, tableFor exs1) := by
      rw [hbe1, buildEntry_eq]
    have hlen1 : ((e1.1).length : Int) = totalFor exs1 := by
      rw [hbe1']
      exact sliceCat_length_int genome exs1 hwf1
    have hwfpairs : ∀ se ∈ exs1, se.1 < se.2 := fun se hse => (hwf1 se hse).1
    have hcap : (off1 : Int) + (read.length : Int) ≤ totalFor exs1 := by
      unfold numOffsets at hoff1N
      omega
    obtain ⟨algn, hfa, hsum, hjo⟩ := findAlignment_ok exs1 hwfpairs (read.length : Int)
      (off1 : Int) (by omega) (by omega) hcap
    have he12 : e1.2 = tableFor exs1 := by
      rw [hbe1']
    refine ⟨algn, ?_, hsum, gene1, hg1, e1, he1, exs1, hwf1, hbe1, hjo⟩
    rw [hres]
    have ha2 : a = some algn := by
      rw [ha1, he12, hfa]
    rw [ha2]

/-- C4 witness: the read CG spans the junction between exons (0,2) and
(2,4) of the genome ACGT; the two reported pieces have lengths summing to 2
and meet exactly at the junction. -/
theorem c4_verbatim_read_witness :
    occursAt ['C','G'] (buildEntry ['A','C','G','T'] [(0,2),(2,4)]).1 1 ∧
    (∃ algn, alignToTranscriptome ['C','G'] [[buildEntry ['A','C','G','T'] [(0,2),(2,4)]]] 6 =
        some (some algn, 0) ∧
      sumLens algn = ((['C','G'] : List Char).length : Int) ∧
      ∃ gene ∈ [[buildEntry ['A','C','G','T'] [(0,2),(2,4)]]],
        ∃ e ∈ gene, ∃ exs, wfExons ['A','C','G','T'] exs ∧
          e = buildEntry ['A','C','G','T'] exs ∧ junctionOk exs algn) := by
  refine ⟨by decide, ?_⟩
  refine c4_verbatim_read ['A','C','G','T'] ['C','G']
    [[buildEntry ['A','C','G','T'] [(0,2),(2,4)]]] 6 ?_ (by decide) ?_
  · intro gene hg e he
    have hgene : gene = [buildEntry ['A','C','G','T'] [(0,2),(2,4)]] := by simpa using hg
    subst hgene
    have he' : e = buildEntry ['A','C','G','T'] [(0,2),(2,4)] := by simpa using he
    exact ⟨[(0,2),(2,4)], by decide, he'⟩
  · refine ⟨[buildEntry ['A','C','G','T'] [(0,2),(2,4)]], by simp,
      buildEntry ['A','C','G','T'] [(0,2),(2,4)], by simp, 1, by decide⟩

